import Mathlib

/-!
Verification development for the flashtext2 keyword-extraction library
(`src/lib.rs`, `src/shared.rs`).  The trie data model, keyword insertion,
the longest-match token scanner (`KeywordExtractor::next`) and the replacer
(`KeywordProcessor::replace_keywords`) are embedded as executable Lean
functions, and the behavioural properties of the specification are proved
about them.

Modelling conventions:
* Rust `usize` byte counts and offsets become `Nat`.
* The hash maps (`FxHashMap` / `CaseInsensitiveHashMap`) become association
  lists with a key-equality policy `keyEq`: exact string equality for the
  case-sensitive processor, equality after case folding for the
  case-insensitive one.
* The external Unicode word-bound tokenizer (`unicode_segmentation`'s
  `split_word_bounds` / `split_word_bound_indices`) is an external
  collaborator of the crate; `tokenize` below models it for the
  alphanumeric/whitespace/punctuation texts exercised here, faithful to the
  contract stated in the specification: maximal alphanumeric runs and
  maximal whitespace runs are single tokens, every other character is its
  own token, and offsets are UTF-8 byte offsets that cover the text exactly.
* The scanner's `while` loop is written with an explicit fuel argument that
  strictly dominates the number of loop iterations (`scanFuel`); fuel
  exhaustion returns the same value as token-stream exhaustion, and
  `scanLoop_fuel_eq` shows the result is independent of any sufficient fuel.
-/

/-- Number of UTF-8 bytes of one scalar value (Rust `char::len_utf8`). -/
def charBytes (c : Char) : Nat :=
  if c.val ≤ 0x7F then 1
  else if c.val ≤ 0x7FF then 2
  else if c.val ≤ 0xFFFF then 3
  else 4

/-- Total UTF-8 byte length of a character list. -/
def utf8Len : List Char → Nat
  | [] => 0
  | c :: cs => charBytes c + utf8Len cs

/-- UTF-8 byte length of a string (Rust `str::len`). -/
def strBytes (s : String) : Nat := utf8Len s.data

/-- Character class used by the tokenizer model: 0 = alphanumeric,
1 = whitespace, 2 = other (each such character is its own token). -/
def charClass (c : Char) : Nat :=
  if c.isAlphanum then 0 else if c.isWhitespace then 1 else 2

/-- Worker for `tokenize`: `runOff` is the byte offset of the current run,
`cl` its character class, `acc` its (nonempty) characters so far, and the
last argument is the remaining input. -/
def tokenizeGo : Nat → Nat → List Char → List Char → List (Nat × String)
  | runOff, _, acc, [] => [(runOff, String.mk acc)]
  | runOff, cl, acc, c :: cs =>
    if cl ≠ 2 ∧ charClass c = cl then
      tokenizeGo runOff cl (acc ++ [c]) cs
    else
      (runOff, String.mk acc) :: tokenizeGo (runOff + utf8Len acc) (charClass c) [c] cs

/-- Modelled from the spec: the external tokenizer
(`split_word_bound_indices`).  Produces the ordered `(byte_offset, token)`
sequence covering the text exactly; maximal alphanumeric runs and maximal
whitespace runs form single tokens and any other character stands alone. -/
def tokenize (text : String) : List (Nat × String) :=
  match text.data with
  | [] => []
  | c :: cs => tokenizeGo 0 (charClass c) [c] cs

/-- Token sequence of a keyword being inserted (Rust `split_word_bounds`,
i.e. the same tokenizer without the offsets). -/
def wordTokens (w : String) : List String := (tokenize w).map (fun p => p.2)

/-- One trie position (Rust `struct Node`): an optional terminal
`clean_word` and the children map, modelled as an association list. -/
inductive Node where
  | mk : Option String → List (String × Node) → Node

/-- The terminal replacement text stored at this node, if any. -/
def Node.clean_word : Node → Option String
  | .mk cw _ => cw

/-- The children map of this node. -/
def Node.children : Node → List (String × Node)
  | .mk _ ch => ch

/-- A fresh empty node (Rust `Node::default()` / `Node::new`). -/
def Node.new : Node := Node.mk none []

/-- Key-folding policy of the children map: the identity for the
case-sensitive processor, Unicode case folding (modelled by lowercasing
every character, the character-level form of `String.toLower`) for the
case-insensitive one. -/
def keyFold (case_sensitive : Bool) (s : String) : String :=
  if case_sensitive then s else String.mk (s.data.map Char.toLower)

/-- Key equality policy of the children map. -/
def keyEq (case_sensitive : Bool) (a b : String) : Bool :=
  keyFold case_sensitive a == keyFold case_sensitive b

/-- Lookup in a children association list (the hash map `get`). -/
def findChild (case_sensitive : Bool) (ch : List (String × Node)) (tok : String) :
    Option Node :=
  (ch.find? (fun p => keyEq case_sensitive p.1 tok)).map (fun p => p.2)

/-- `node.children.get(token)` of the Rust source. -/
def childGet (case_sensitive : Bool) (node : Node) (tok : String) : Option Node :=
  findChild case_sensitive node.children tok

/-- Store `n` as the child under key `tok`, replacing the entry the map
lookup would find, or appending a new entry when none exists (the hash map
`entry(tok).or_default()` followed by writing back the updated child; like
the case-insensitive map, an existing entry keeps its originally stored
key). -/
def setChild (case_sensitive : Bool) :
    List (String × Node) → String → Node → List (String × Node)
  | [], tok, n => [(tok, n)]
  | (k, c) :: rest, tok, n =>
    if keyEq case_sensitive k tok then (k, n) :: rest
    else (k, c) :: setChild case_sensitive rest tok n

/-- Walk of `add_keyword_with_clean_word` over the token path: creates
missing children, sets the final node's `clean_word`, and reports whether
that node was already terminal (the check driving the `len` increment). -/
def insertPath (case_sensitive : Bool) : Node → List String → String → Node × Bool
  | node, [], cw => (Node.mk (some cw) node.children, node.clean_word.isSome)
  | node, t :: ts, cw =>
    let child := (childGet case_sensitive node t).getD Node.new
    let r := insertPath case_sensitive child ts cw
    (Node.mk node.clean_word (setChild case_sensitive node.children t r.1), r.2)

/-- Rust `struct KeywordProcessor`.  `src/lib.rs` hard-wires the
case-sensitive map; `src/shared.rs` selects the map by the
`case_sensitive` flag fixed at construction — the embedding carries the
flag and both sources share the algorithm. -/
structure KeywordProcessor where
  case_sensitive : Bool
  trie : Node
  len : Nat

/-- `KeywordProcessor::new`. -/
def KeywordProcessor.new (case_sensitive : Bool) : KeywordProcessor :=
  { case_sensitive := case_sensitive, trie := Node.new, len := 0 }

/-- `KeywordProcessor::is_empty`. -/
def KeywordProcessor.is_empty (kp : KeywordProcessor) : Bool := kp.len == 0

/-- `KeywordProcessor::add_keyword_with_clean_word`: walk the token path of
`word`, then increment `len` only if the final node was not yet terminal,
and unconditionally overwrite its `clean_word`. -/
def KeywordProcessor.add_keyword_with_clean_word
    (kp : KeywordProcessor) (word clean_word : String) : KeywordProcessor :=
  let r := insertPath kp.case_sensitive kp.trie (wordTokens word) clean_word
  { kp with trie := r.1, len := if r.2 then kp.len else kp.len + 1 }

/-- `KeywordProcessor::add_keyword`. -/
def KeywordProcessor.add_keyword (kp : KeywordProcessor) (word : String) :
    KeywordProcessor :=
  kp.add_keyword_with_clean_word word word

/-- The body of `KeywordExtractor::next`: the `while self.idx < len` loop
over the token stream.  State: current `node`, the best
`longest_sequence` found in this attempt, `traversal_start_idx` (`start`)
and the next unconsumed token position (`idx`).  The first argument is the
iteration fuel; fuel exhaustion returns exactly what token-stream
exhaustion returns, and any fuel of at least `scanFuel` gives the same
result (`scanLoop_fuel_eq`). -/
def scanLoop (case_sensitive : Bool) (trie : Node) (tokens : List (Nat × String)) :
    Nat → Node → Option (String × Nat × Nat) → Nat → Nat →
    Option (String × Nat × Nat) × Nat
  | 0, _, longest, _, idx => (longest, idx)
  | fuel + 1, node, longest, start, idx =>
    match tokens[idx]? with
    | none => (longest, idx)
    | some (token_start_idx, token) =>
      match childGet case_sensitive node token with
      | some child =>
        match child.clean_word with
        | some cw =>
          scanLoop case_sensitive trie tokens fuel child
            (some (cw, (tokens[start]?.getD (0, "")).1, token_start_idx + strBytes token))
            start (idx + 1)
        | none =>
          scanLoop case_sensitive trie tokens fuel child longest start (idx + 1)
      | none =>
        match longest with
        | some kw => (some kw, idx)
        | none =>
          scanLoop case_sensitive trie tokens fuel trie none (start + 1) (start + 1)

/-- Fuel that strictly dominates the iteration count of `scanLoop` from any
reachable state. -/
def scanFuel (tokens : List (Nat × String)) : Nat :=
  (tokens.length + 1) * (tokens.length + 1)

/-- One call of `KeywordExtractor::next` starting at token position `idx`:
returns the produced match (`none` signals completion) and the extractor's
index afterwards. -/
def nextMatch (case_sensitive : Bool) (trie : Node) (tokens : List (Nat × String))
    (idx : Nat) : Option (String × Nat × Nat) × Nat :=
  scanLoop case_sensitive trie tokens (scanFuel tokens) trie none idx idx

/-- Driving the iterator to completion: call `next` repeatedly, collecting
matches until `none`.  The fuel `tokens.length + 1` dominates the number of
yields because every produced match strictly advances the index. -/
def extractLoop (case_sensitive : Bool) (trie : Node) (tokens : List (Nat × String)) :
    Nat → Nat → List (String × Nat × Nat)
  | 0, _ => []
  | fuel + 1, idx =>
    match nextMatch case_sensitive trie tokens idx with
    | (some m, idx2) => m :: extractLoop case_sensitive trie tokens fuel idx2
    | (none, _) => []

/-- The full match sequence of one extraction run over `tokens`. -/
def extractAll (case_sensitive : Bool) (trie : Node)
    (tokens : List (Nat × String)) : List (String × Nat × Nat) :=
  extractLoop case_sensitive trie tokens (tokens.length + 1) 0

/-- `KeywordProcessor::extract_keywords_with_span`. -/
def KeywordProcessor.extract_keywords_with_span (kp : KeywordProcessor)
    (text : String) : List (String × Nat × Nat) :=
  extractAll kp.case_sensitive kp.trie (tokenize text)

/-- `KeywordProcessor::extract_keywords`. -/
def KeywordProcessor.extract_keywords (kp : KeywordProcessor) (text : String) :
    List String :=
  (kp.extract_keywords_with_span text).map (fun m => m.1)

/-- Characters of `l` whose byte range lies inside `[a, b)`, `off` being the
byte offset of the head of `l`.  At char-boundary offsets this is exactly
the Rust byte slice `&text[a..b]`. -/
def sliceBytes : List Char → Nat → Nat → Nat → List Char
  | [], _, _, _ => []
  | c :: cs, off, a, b =>
    let rest := sliceBytes cs (off + charBytes c) a b
    if a ≤ off ∧ off + charBytes c ≤ b then c :: rest else rest

/-- Byte slice `&text[a..b]` of the Rust source, for boundary offsets. -/
def extractBytes (s : String) (a b : Nat) : String :=
  String.mk (sliceBytes s.data 0 a b)

/-- `KeywordProcessor::replace_keywords`: run the span extraction, copy the
text between `prev_end` and each match start verbatim, append the match's
replacement text, and finally append the tail after the last match.
(`String::with_capacity` and `shrink_to_fit` are allocation hints with no
observable effect.) -/
def KeywordProcessor.replace_keywords (kp : KeywordProcessor) (text : String) :
    String :=
  let st := (kp.extract_keywords_with_span text).foldl
    (fun (st : String × Nat) m =>
      (st.1 ++ extractBytes text st.2 m.2.1 ++ m.1, m.2.2))
    ("", 0)
  st.1 ++ extractBytes text st.2 (strBytes text)

/-- Modelled from the spec (section 4.4), for the refinement claim about
the replacer: for each match in order copy `text[prev_end..match.start]`,
append `match.replacement_text`, set `prev_end = match.end`; after the loop
append `text[prev_end..]`. -/
def specReplace (text : String) : Nat → List (String × Nat × Nat) → String
  | prev_end, [] => extractBytes text prev_end (strBytes text)
  | prev_end, (cw, s, e) :: rest =>
    extractBytes text prev_end s ++ cw ++ specReplace text e rest

mutual
/-- Number of trie nodes whose terminal value is present — one per distinct
inserted token path. -/
def countTerminals : Node → Nat
  | Node.mk cw ch => (if cw.isSome then 1 else 0) + countTerminalsList ch
/-- Sum of `countTerminals` over a children list. -/
def countTerminalsList : List (String × Node) → Nat
  | [] => 0
  | (_, n) :: rest => countTerminals n + countTerminalsList rest
end

/-- Terminal value found at the end of a token path, if the path exists and
its final node is terminal. -/
def pathTerminal (case_sensitive : Bool) : Node → List String → Option String
  | node, [] => node.clean_word
  | node, t :: ts =>
    match childGet case_sensitive node t with
    | some c => pathTerminal case_sensitive c ts
    | none => none

/-- Tokenizer contract (spec section 4.1): the token sequence starts at
byte offset `base`, every token is nonempty, and each offset is the
previous offset plus the previous token's byte length. -/
def tokensChained (base : Nat) : List (Nat × String) → Bool
  | [] => true
  | (o, t) :: rest =>
    o == base && !(strBytes t == 0) && tokensChained (o + strBytes t) rest

/-- Byte sizes of a token sequence, summed. -/
def sumBytes : List (Nat × String) → Nat
  | [] => 0
  | (_, t) :: rest => strBytes t + sumBytes rest

/-- Byte offset of the boundary in front of token `i` (for `i` equal to the
token count: the end of the text). -/
def offAt (base : Nat) (tokens : List (Nat × String)) (i : Nat) : Nat :=
  base + sumBytes (tokens.take i)

/-- Concatenated characters of the token sequence. -/
def joinChars : List (Nat × String) → List Char
  | [] => []
  | (_, t) :: rest => t.data ++ joinChars rest

/-- The matches of one extraction run, each annotated by existential token
indices: every match spans the token range `[a, b)` with `a` at or after
the scan position `k` of its producing call, and the remainder continues
from `b`. -/
def MatchesIdx (base : Nat) (tokens : List (Nat × String)) :
    List (String × Nat × Nat) → Nat → Prop
  | [], _ => True
  | (_, s, e) :: rest, k =>
    ∃ a b, k ≤ a ∧ a < b ∧ b ≤ tokens.length ∧
      s = offAt base tokens a ∧ e = offAt base tokens b ∧
      MatchesIdx base tokens rest b

/-- A processor built by a sequence of insertions from a fresh processor. -/
def buildKP (case_sensitive : Bool) (pairs : List (String × String)) :
    KeywordProcessor :=
  pairs.foldl (fun kp p => kp.add_keyword_with_clean_word p.1 p.2)
    (KeywordProcessor.new case_sensitive)

/-- Processor of the greedy-longest-match example: keywords `"hello"` and
`"hello world"`. -/
def kpHello : KeywordProcessor :=
  ((KeywordProcessor.new true).add_keyword "hello").add_keyword "hello world"

/-- Processor with keywords `"a"`, `"a b c"` and `"b"`, used to exhibit the
resume behaviour after an emitted match. -/
def kpABC : KeywordProcessor :=
  (((KeywordProcessor.new true).add_keyword "a").add_keyword "a b c").add_keyword "b"

/-- Processor with keywords `"a x"` and `"b"`, used to exhibit the dead-end
restart granularity. -/
def kpAX : KeywordProcessor :=
  ((KeywordProcessor.new true).add_keyword "a x").add_keyword "b"

/-- Case-insensitive processor with the keyword `"Rust"`. -/
def kpRust : KeywordProcessor :=
  (KeywordProcessor.new false).add_keyword "Rust"

/-- Processor where the keyword `"hi"` is registered twice with different
replacements. -/
def kpHi : KeywordProcessor :=
  ((KeywordProcessor.new true).add_keyword_with_clean_word "hi" "A").add_keyword_with_clean_word
    "hi" "B"

theorem charBytes_pos (c : Char) : 1 ≤ charBytes c := by
  unfold charBytes
  split
  · omega
  · split
    · omega
    · split <;> omega

theorem utf8Len_append (l1 l2 : List Char) :
    utf8Len (l1 ++ l2) = utf8Len l1 + utf8Len l2 := by
  induction l1 with
  | nil => simp [utf8Len]
  | cons c cs ih => simp [utf8Len, ih]; omega

theorem strBytes_mk (l : List Char) : strBytes (String.mk l) = utf8Len l := rfl

theorem utf8Len_pos_of_ne_nil (l : List Char) (h : l ≠ []) : 0 < utf8Len l := by
  cases l with
  | nil => exact absurd rfl h
  | cons c cs => have := charBytes_pos c; simp [utf8Len]; omega

theorem keyEq_refl (cs : Bool) (t : String) : keyEq cs t t = true := by
  simp [keyEq]

theorem sumBytes_append (l1 l2 : List (Nat × String)) :
    sumBytes (l1 ++ l2) = sumBytes l1 + sumBytes l2 := by
  induction l1 with
  | nil => simp [sumBytes]
  | cons p rest ih => cases p; simp [sumBytes, ih]; omega

theorem sumBytes_take_le (l : List (Nat × String)) : ∀ i, sumBytes (l.take i) ≤ sumBytes l := by
  induction l with
  | nil => intro i; simp
  | cons p rest ih =>
    intro i
    cases i with
    | zero => simp [sumBytes]
    | succ i => cases p; simp [sumBytes]; exact ih i

theorem tokenizeGo_chained :
    ∀ (rem : List Char) (cl : Nat) (acc : List Char) (off : Nat), acc ≠ [] →
      tokensChained off (tokenizeGo off cl acc rem) = true := by
  intro rem
  induction rem with
  | nil =>
    intro cl acc off hacc
    have hpos := utf8Len_pos_of_ne_nil acc hacc
    simp [tokenizeGo, tokensChained, strBytes_mk]
    omega
  | cons c cs ih =>
    intro cl acc off hacc
    have hpos := utf8Len_pos_of_ne_nil acc hacc
    by_cases hcl : cl ≠ 2 ∧ charClass c = cl
    · simp only [tokenizeGo, if_pos hcl]
      exact ih cl (acc ++ [c]) off (by simp)
    · simp only [tokenizeGo, if_neg hcl]
      simp [tokensChained, strBytes_mk]
      refine ⟨by omega, ?_⟩
      exact ih (charClass c) [c] (off + utf8Len acc) (by simp)

theorem tokenize_chained (text : String) : tokensChained 0 (tokenize text) = true := by
  unfold tokenize
  cases text.data with
  | nil => simp [tokensChained]
  | cons c cs => exact tokenizeGo_chained cs (charClass c) [c] 0 (by simp)

theorem tokenizeGo_join :
    ∀ (rem : List Char) (cl : Nat) (acc : List Char) (off : Nat),
      joinChars (tokenizeGo off cl acc rem) = acc ++ rem := by
  intro rem
  induction rem with
  | nil => intro cl acc off; simp [tokenizeGo, joinChars]
  | cons c cs ih =>
    intro cl acc off
    by_cases hcl : cl ≠ 2 ∧ charClass c = cl
    · simp only [tokenizeGo, if_pos hcl]
      rw [ih]
      simp
    · simp only [tokenizeGo, if_neg hcl]
      simp [joinChars]
      rw [ih]
      simp

theorem tokenize_join (text : String) : joinChars (tokenize text) = text.data := by
  unfold tokenize
  cases h : text.data with
  | nil => simp [joinChars]
  | cons c cs => rw [tokenizeGo_join]; simp

theorem utf8Len_joinChars (ts : List (Nat × String)) :
    utf8Len (joinChars ts) = sumBytes ts := by
  induction ts with
  | nil => simp [joinChars, sumBytes, utf8Len]
  | cons p rest ih => cases p; simp [joinChars, sumBytes, utf8Len_append, ih, strBytes]

theorem offAt_zero (base : Nat) (ts : List (Nat × String)) : offAt base ts 0 = base := by
  simp [offAt, sumBytes]

theorem offAt_mono (base : Nat) (ts : List (Nat × String)) {i j : Nat} (h : i ≤ j) :
    offAt base ts i ≤ offAt base ts j := by
  unfold offAt
  have : ts.take i = (ts.take j).take i := by rw [List.take_take, Nat.min_eq_left h]
  rw [this]
  have := sumBytes_take_le (ts.take j) i
  omega

theorem tokensChained_get (base : Nat) :
    ∀ (ts : List (Nat × String)), tokensChained base ts = true →
      ∀ i (h : i < ts.length), (ts[i]).1 = offAt base ts i := by
  intro ts
  induction ts generalizing base with
  | nil => intro _ i h; simp at h
  | cons p rest ih =>
    obtain ⟨o, t⟩ := p
    intro hch i h
    simp only [tokensChained, Bool.and_eq_true, beq_iff_eq] at hch
    obtain ⟨⟨hob, _⟩, hrest⟩ := hch
    cases i with
    | zero => simp [offAt_zero, hob]
    | succ i =>
      simp only [List.length_cons] at h
      have := ih (o + strBytes t) hrest i (by omega)
      simp only [List.getElem_cons_succ]
      rw [this]
      simp [offAt, sumBytes, hob]
      omega

theorem tokensChained_pos (base : Nat) :
    ∀ (ts : List (Nat × String)), tokensChained base ts = true →
      ∀ i (h : i < ts.length), 0 < strBytes (ts[i]).2 := by
  intro ts
  induction ts generalizing base with
  | nil => intro _ i h; simp at h
  | cons p rest ih =>
    obtain ⟨o, t⟩ := p
    intro hch i h
    simp only [tokensChained, Bool.and_eq_true, beq_iff_eq] at hch
    obtain ⟨⟨_, hpos⟩, hrest⟩ := hch
    cases i with
    | zero =>
      simp only [List.getElem_cons_zero]
      simp at hpos
      omega
    | succ i =>
      simp only [List.length_cons] at h
      exact ih (o + strBytes t) hrest i (by omega)

theorem sumBytes_singleton (p : Nat × String) : sumBytes [p] = strBytes p.2 := by
  cases p; simp [sumBytes]

theorem offAt_succ (base : Nat) (ts : List (Nat × String))
    (hch : tokensChained base ts = true) (i : Nat) (h : i < ts.length) :
    offAt base ts (i + 1) = (ts[i]).1 + strBytes (ts[i]).2 := by
  have hget := tokensChained_get base ts hch i h
  have htake : ts.take (i + 1) = ts.take i ++ [ts[i]] := by
    rw [List.take_succ, List.getElem?_eq_getElem h]
    rfl
  unfold offAt
  rw [htake, sumBytes_append, sumBytes_singleton]
  unfold offAt at hget
  omega

theorem offAt_lt (base : Nat) (ts : List (Nat × String))
    (hch : tokensChained base ts = true) {i j : Nat} (hij : i < j) (hj : j ≤ ts.length) :
    offAt base ts i < offAt base ts j := by
  have hi : i < ts.length := by omega
  have h1 : offAt base ts (i + 1) = (ts[i]).1 + strBytes (ts[i]).2 :=
    offAt_succ base ts hch i hi
  have h2 := tokensChained_get base ts hch i hi
  have h3 := tokensChained_pos base ts hch i hi
  have h4 : offAt base ts (i + 1) ≤ offAt base ts j := offAt_mono base ts (by omega)
  unfold offAt at h1 h2 h4 ⊢
  omega

theorem offAt_index_le (base : Nat) (ts : List (Nat × String))
    (hch : tokensChained base ts = true) {i j : Nat} (hi : i ≤ ts.length)
    (hle : offAt base ts i ≤ offAt base ts j) (hj : j ≤ ts.length) : i ≤ j := by
  by_contra hcon
  have : offAt base ts j < offAt base ts i := offAt_lt base ts hch (by omega) hi
  omega

theorem scanLoop_out_of_range (cs : Bool) (trie : Node) (tokens : List (Nat × String))
    (fuel : Nat) (node : Node) (longest : Option (String × Nat × Nat)) (start idx : Nat)
    (h : tokens[idx]? = none) :
    scanLoop cs trie tokens fuel node longest start idx = (longest, idx) := by
  cases fuel with
  | zero => simp [scanLoop]
  | succ fuel => simp [scanLoop, h]

theorem scanLoop_advance (cs : Bool) (trie : Node) (tokens : List (Nat × String)) :
    ∀ (fuel : Nat) (node : Node) (longest : Option (String × Nat × Nat))
      (start idx : Nat) (m : String × Nat × Nat) (idx2 : Nat),
      start ≤ idx → idx ≤ tokens.length →
      (longest.isSome = true → start < idx) →
      scanLoop cs trie tokens fuel node longest start idx = (some m, idx2) →
      start < idx2 ∧ idx2 ≤ tokens.length := by
  intro fuel
  induction fuel with
  | zero =>
    intro node longest start idx m idx2 h1 h2 h3 heq
    simp only [scanLoop, Prod.mk.injEq] at heq
    obtain ⟨hl, hi⟩ := heq
    subst hi
    exact ⟨h3 (by simp [hl]), h2⟩
  | succ fuel ih =>
    intro node longest start idx m idx2 h1 h2 h3 heq
    cases htok : tokens[idx]? with
    | none =>
      rw [scanLoop_out_of_range cs trie tokens _ node longest start idx htok] at heq
      simp only [Prod.mk.injEq] at heq
      obtain ⟨hl, hi⟩ := heq
      subst hi
      exact ⟨h3 (by simp [hl]), h2⟩
    | some p =>
      obtain ⟨o, t⟩ := p
      have hidx : idx < tokens.length := (List.getElem?_eq_some.mp htok).1
      simp only [scanLoop, htok] at heq
      cases hc : childGet cs node t with
      | some child =>
        simp only [hc] at heq
        cases hcw : child.clean_word with
        | some cw =>
          simp only [hcw] at heq
          have := ih child _ start (idx + 1) m idx2 (by omega) (by omega)
            (fun _ => by omega) heq
          omega
        | none =>
          simp only [hcw] at heq
          have := ih child longest start (idx + 1) m idx2 (by omega) (by omega)
            (fun hs => by have := h3 hs; omega) heq
          omega
      | none =>
        simp only [hc] at heq
        cases hl : longest with
        | some kw =>
          simp only [hl, Prod.mk.injEq] at heq
          obtain ⟨_, hi⟩ := heq
          subst hi
          exact ⟨h3 (by simp [hl]), by omega⟩
        | none =>
          simp only [hl] at heq
          have := ih trie none (start + 1) (start + 1) m idx2 (by omega) (by omega)
            (fun hs => by simp at hs) heq
          omega

theorem scanLoop_match_spec (cs : Bool) (trie : Node) (tokens : List (Nat × String))
    (base : Nat) (hch : tokensChained base tokens = true) :
    ∀ (fuel : Nat) (node : Node) (longest : Option (String × Nat × Nat))
      (lo start idx : Nat) (cw : String) (s e idx2 : Nat),
      lo ≤ start → start ≤ idx → idx ≤ tokens.length →
      (∀ cw0 s0 e0, longest = some (cw0, s0, e0) →
        ∃ a b, lo ≤ a ∧ a < b ∧ b ≤ idx ∧
          s0 = offAt base tokens a ∧ e0 = offAt base tokens b) →
      scanLoop cs trie tokens fuel node longest start idx = (some (cw, s, e), idx2) →
      ∃ a b, lo ≤ a ∧ a < b ∧ b ≤ idx2 ∧ idx2 ≤ tokens.length ∧
        s = offAt base tokens a ∧ e = offAt base tokens b := by
  intro fuel
  induction fuel with
  | zero =>
    intro node longest lo start idx cw s e idx2 h0 h1 h2 hinv heq
    simp only [scanLoop, Prod.mk.injEq] at heq
    obtain ⟨hl, hi⟩ := heq
    subst hi
    obtain ⟨a, b, hab⟩ := hinv cw s e hl
    exact ⟨a, b, hab.1, hab.2.1, hab.2.2.1, h2, hab.2.2.2⟩
  | succ fuel ih =>
    intro node longest lo start idx cw s e idx2 h0 h1 h2 hinv heq
    cases htok : tokens[idx]? with
    | none =>
      rw [scanLoop_out_of_range cs trie tokens _ node longest start idx htok] at heq
      simp only [Prod.mk.injEq] at heq
      obtain ⟨hl, hi⟩ := heq
      subst hi
      obtain ⟨a, b, hab⟩ := hinv cw s e hl
      exact ⟨a, b, hab.1, hab.2.1, hab.2.2.1, h2, hab.2.2.2⟩
    | some p =>
      obtain ⟨o, t⟩ := p
      obtain ⟨hidx, hval⟩ := List.getElem?_eq_some.mp htok
      simp only [scanLoop, htok] at heq
      cases hc : childGet cs node t with
      | some child =>
        simp only [hc] at heq
        cases hcw : child.clean_word with
        | some cw1 =>
          simp only [hcw] at heq
          refine ih child _ lo start (idx + 1) cw s e idx2 h0 (by omega) (by omega)
            ?_ heq
          intro cw0 s0 e0 hsome
          simp only [Option.some.injEq, Prod.mk.injEq] at hsome
          obtain ⟨_, hs0, he0⟩ := hsome
          refine ⟨start, idx + 1, h0, by omega, by omega, ?_, ?_⟩
          · have hslt : start < tokens.length := by omega
            have : tokens[start]? = some tokens[start] := List.getElem?_eq_getElem hslt
            rw [← hs0, this]
            simp
            exact tokensChained_get base tokens hch start hslt
          · rw [← he0, offAt_succ base tokens hch idx hidx, hval]
        | none =>
          simp only [hcw] at heq
          refine ih child longest lo start (idx + 1) cw s e idx2 h0 (by omega) (by omega)
            ?_ heq
          intro cw0 s0 e0 hsome
          obtain ⟨a, b, hab⟩ := hinv cw0 s0 e0 hsome
          exact ⟨a, b, hab.1, hab.2.1, by omega, hab.2.2.2⟩
      | none =>
        simp only [hc] at heq
        cases hl : longest with
        | some kw =>
          simp only [hl, Prod.mk.injEq] at heq
          obtain ⟨hkw, hi⟩ := heq
          subst hi
          obtain ⟨a, b, hab⟩ := hinv cw s e (by rw [hl, hkw])
          exact ⟨a, b, hab.1, hab.2.1, hab.2.2.1, by omega, hab.2.2.2⟩
        | none =>
          simp only [hl] at heq
          refine ih trie none lo (start + 1) (start + 1) cw s e idx2 (by omega)
            (by omega) (by omega) ?_ heq
          intro cw0 s0 e0 hsome
          simp at hsome

theorem measure_dead_end (L start idx : Nat) (h1 : start ≤ idx) (h2 : idx < L) :
    (L - (start + 1)) * (L + 1) + (L - (start + 1)) + 1
      ≤ (L - start) * (L + 1) + (L - idx) := by
  have hk : L - start = (L - (start + 1)) + 1 := by omega
  rw [hk, Nat.succ_mul]
  have h3 : L - (start + 1) ≤ L := by omega
  have h4 : 1 ≤ L - idx := by omega
  omega

theorem scanLoop_fuel_eq (cs : Bool) (trie : Node) (tokens : List (Nat × String)) :
    ∀ (f g : Nat) (node : Node) (longest : Option (String × Nat × Nat))
      (start idx : Nat),
      start ≤ idx →
      (tokens.length - start) * (tokens.length + 1) + (tokens.length - idx) ≤ f →
      (tokens.length - start) * (tokens.length + 1) + (tokens.length - idx) ≤ g →
      scanLoop cs trie tokens f node longest start idx
        = scanLoop cs trie tokens g node longest start idx := by
  intro f
  induction f with
  | zero =>
    intro g node longest start idx hsi hf hg
    have hidx : tokens.length ≤ idx := by
      by_contra hcon
      have : 1 ≤ tokens.length - idx := by omega
      omega
    have htok : tokens[idx]? = none := List.getElem?_eq_none hidx
    rw [scanLoop_out_of_range cs trie tokens 0 node longest start idx htok,
      scanLoop_out_of_range cs trie tokens g node longest start idx htok]
  | succ f ih =>
    intro g node longest start idx hsi hf hg
    cases htok : tokens[idx]? with
    | none =>
      rw [scanLoop_out_of_range cs trie tokens _ node longest start idx htok,
        scanLoop_out_of_range cs trie tokens g node longest start idx htok]
    | some p =>
      obtain ⟨o, t⟩ := p
      have hidx : idx < tokens.length := (List.getElem?_eq_some.mp htok).1
      have hg1 : 1 ≤ g := by
        have : 1 ≤ tokens.length - idx := by omega
        omega
      obtain ⟨g, rfl⟩ : ∃ g0, g = g0 + 1 := ⟨g - 1, by omega⟩
      simp only [scanLoop, htok]
      cases hc : childGet cs node t with
      | some child =>
        have hstep : (tokens.length - start) * (tokens.length + 1)
            + (tokens.length - (idx + 1))
            = (tokens.length - start) * (tokens.length + 1) + (tokens.length - idx) - 1 := by
          have : tokens.length - (idx + 1) = tokens.length - idx - 1 := by omega
          have h4 : 1 ≤ tokens.length - idx := by omega
          omega
        cases hcw : child.clean_word with
        | some cw =>
          simp only [hcw]
          exact ih g child _ start (idx + 1) (by omega) (by omega) (by omega)
        | none =>
          simp only [hcw]
          exact ih g child longest start (idx + 1) (by omega) (by omega) (by omega)
      | none =>
        cases longest with
        | some kw => rfl
        | none =>
          have hde := measure_dead_end tokens.length start idx hsi hidx
          exact ih g trie none (start + 1) (start + 1) (by omega) (by omega) (by omega)

theorem scanLoop_children_congr (cs : Bool) (tokens : List (Nat × String)) :
    ∀ (fuel : Nat) (trie1 trie2 node1 node2 : Node)
      (longest : Option (String × Nat × Nat)) (start idx : Nat),
      trie1.children = trie2.children → node1.children = node2.children →
      scanLoop cs trie1 tokens fuel node1 longest start idx
        = scanLoop cs trie2 tokens fuel node2 longest start idx := by
  intro fuel
  induction fuel with
  | zero => intro trie1 trie2 node1 node2 longest start idx _ _; rfl
  | succ fuel ih =>
    intro trie1 trie2 node1 node2 longest start idx htrie hnode
    cases htok : tokens[idx]? with
    | none => simp only [scanLoop, htok]
    | some p =>
      obtain ⟨o, t⟩ := p
      simp only [scanLoop, htok]
      have hcg : childGet cs node1 t = childGet cs node2 t := by
        unfold childGet
        rw [hnode]
      rw [hcg]
      cases hc : childGet cs node2 t with
      | some child =>
        cases hcw : child.clean_word with
        | some cw =>
          simp only [hcw]
          exact ih trie1 trie2 child child _ start (idx + 1) htrie rfl
        | none =>
          simp only [hcw]
          exact ih trie1 trie2 child child longest start (idx + 1) htrie rfl
      | none =>
        cases longest with
        | some kw => rfl
        | none => exact ih trie1 trie2 trie1 trie2 none (start + 1) (start + 1) htrie htrie

theorem scanLoop_no_children (cs : Bool) (tokens : List (Nat × String)) :
    ∀ (fuel : Nat) (trie node : Node) (start idx : Nat),
      trie.children = [] → node.children = [] →
      (scanLoop cs trie tokens fuel node none start idx).1 = none := by
  intro fuel
  induction fuel with
  | zero => intro trie node start idx _ _; rfl
  | succ fuel ih =>
    intro trie node start idx htrie hnode
    cases htok : tokens[idx]? with
    | none => simp only [scanLoop, htok]
    | some p =>
      obtain ⟨o, t⟩ := p
      simp only [scanLoop, htok]
      have hc : childGet cs node t = none := by
        unfold childGet
        rw [hnode]
        rfl
      rw [hc]
      exact ih trie trie (start + 1) (start + 1) htrie htrie

theorem nextMatch_advance (cs : Bool) (trie : Node) (tokens : List (Nat × String))
    (idx : Nat) (m : String × Nat × Nat) (idx2 : Nat)
    (h : nextMatch cs trie tokens idx = (some m, idx2)) :
    idx < idx2 ∧ idx2 ≤ tokens.length := by
  by_cases hidx : idx ≤ tokens.length
  · exact scanLoop_advance cs trie tokens (scanFuel tokens) trie none idx idx m idx2
      (Nat.le_refl idx) hidx (fun hs => by simp at hs) h
  · exfalso
    have htok : tokens[idx]? = none := List.getElem?_eq_none (by omega)
    rw [nextMatch, scanLoop_out_of_range cs trie tokens _ trie none idx idx htok] at h
    simp at h

theorem nextMatch_spec (cs : Bool) (trie : Node) (tokens : List (Nat × String))
    (base : Nat) (hch : tokensChained base tokens = true) (idx : Nat) (cw : String)
    (s e idx2 : Nat) (h : nextMatch cs trie tokens idx = (some (cw, s, e), idx2)) :
    ∃ a b, idx ≤ a ∧ a < b ∧ b ≤ idx2 ∧ idx2 ≤ tokens.length ∧
      s = offAt base tokens a ∧ e = offAt base tokens b := by
  by_cases hidx : idx ≤ tokens.length
  · exact scanLoop_match_spec cs trie tokens base hch (scanFuel tokens) trie none idx
      idx idx cw s e idx2 (Nat.le_refl idx) (Nat.le_refl idx) hidx
      (fun cw0 s0 e0 hsome => by simp at hsome) h
  · exfalso
    have htok : tokens[idx]? = none := List.getElem?_eq_none (by omega)
    rw [nextMatch, scanLoop_out_of_range cs trie tokens _ trie none idx idx htok] at h
    simp at h

theorem extractLoop_length (cs : Bool) (trie : Node) (tokens : List (Nat × String)) :
    ∀ (fuel idx : Nat),
      (extractLoop cs trie tokens fuel idx).length ≤ tokens.length - idx := by
  intro fuel
  induction fuel with
  | zero => intro idx; simp [extractLoop]
  | succ fuel ih =>
    intro idx
    cases hnm : nextMatch cs trie tokens idx with
    | mk fst snd =>
      cases fst with
      | some m =>
        have hadv := nextMatch_advance cs trie tokens idx m snd hnm
        simp only [extractLoop, hnm, List.length_cons]
        have := ih snd
        omega
      | none => simp [extractLoop, hnm]

theorem matchesIdx_mono (base : Nat) (tokens : List (Nat × String)) :
    ∀ (ms : List (String × Nat × Nat)) (k k2 : Nat), k ≤ k2 →
      MatchesIdx base tokens ms k2 → MatchesIdx base tokens ms k := by
  intro ms
  cases ms with
  | nil => intro k k2 _ _; simp [MatchesIdx]
  | cons m rest =>
    obtain ⟨cw, s, e⟩ := m
    intro k k2 hk h
    simp only [MatchesIdx] at h ⊢
    obtain ⟨a, b, h1, h2, h3, h4, h5, h6⟩ := h
    exact ⟨a, b, by omega, h2, h3, h4, h5, h6⟩

theorem extractLoop_matchesIdx (cs : Bool) (trie : Node) (tokens : List (Nat × String))
    (base : Nat) (hch : tokensChained base tokens = true) :
    ∀ (fuel idx : Nat),
      MatchesIdx base tokens (extractLoop cs trie tokens fuel idx) idx := by
  intro fuel
  induction fuel with
  | zero => intro idx; simp [extractLoop, MatchesIdx]
  | succ fuel ih =>
    intro idx
    cases hnm : nextMatch cs trie tokens idx with
    | mk fst snd =>
      cases fst with
      | none => simp [extractLoop, hnm, MatchesIdx]
      | some m =>
        obtain ⟨cw, s, e⟩ := m
        obtain ⟨a, b, h1, h2, h3, h4, h5, h6⟩ :=
          nextMatch_spec cs trie tokens base hch idx cw s e snd hnm
        simp only [extractLoop, hnm, MatchesIdx]
        refine ⟨a, b, h1, h2, by omega, h5, h6, ?_⟩
        exact matchesIdx_mono base tokens _ b snd h3 (ih snd)

theorem matchesIdx_bounds (base : Nat) (tokens : List (Nat × String))
    (hch : tokensChained base tokens = true) :
    ∀ (ms : List (String × Nat × Nat)) (k : Nat), MatchesIdx base tokens ms k →
      ∀ m ∈ ms, offAt base tokens k ≤ m.2.1 ∧ m.2.1 < m.2.2 ∧
        m.2.2 ≤ offAt base tokens tokens.length := by
  intro ms
  induction ms with
  | nil => intro k _ m hm; simp at hm
  | cons m0 rest ih =>
    obtain ⟨cw, s, e⟩ := m0
    intro k h m hm
    simp only [MatchesIdx] at h
    obtain ⟨a, b, h1, h2, h3, h4, h5, h6⟩ := h
    rcases List.mem_cons.mp hm with hm0 | hm'
    · subst hm0
      refine ⟨?_, ?_, ?_⟩
      · simp only [h4]
        exact offAt_mono base tokens h1
      · simp only [h4, h5]
        exact offAt_lt base tokens hch h2 h3
      · simp only [h5]
        exact offAt_mono base tokens h3
    · have := ih b h6 m hm'
      have hkb : offAt base tokens k ≤ offAt base tokens b :=
        offAt_mono base tokens (by omega)
      exact ⟨by omega, this.2.1, this.2.2⟩

theorem matchesIdx_chain (base : Nat) (tokens : List (Nat × String))
    (hch : tokensChained base tokens = true) :
    ∀ (ms : List (String × Nat × Nat)) (k : Nat), MatchesIdx base tokens ms k →
      List.Chain' (fun x y => x.2.2 ≤ y.2.1) ms := by
  intro ms
  induction ms with
  | nil => intro k _; simp
  | cons m0 rest ih =>
    obtain ⟨cw, s, e⟩ := m0
    intro k h
    simp only [MatchesIdx] at h
    obtain ⟨a, b, h1, h2, h3, h4, h5, h6⟩ := h
    have hrest := ih b h6
    cases rest with
    | nil => simp
    | cons m1 rest2 =>
      obtain ⟨cw1, s1, e1⟩ := m1
      rw [List.chain'_cons]
      refine ⟨?_, hrest⟩
      simp only [MatchesIdx] at h6
      obtain ⟨a1, b1, g1, g2, g3, g4, g5, g6⟩ := h6
      simp only [h5, g4]
      exact offAt_mono base tokens g1

theorem joinChars_append (l1 l2 : List (Nat × String)) :
    joinChars (l1 ++ l2) = joinChars l1 ++ joinChars l2 := by
  induction l1 with
  | nil => simp [joinChars]
  | cons p rest ih => cases p; simp [joinChars, ih]

theorem sliceBytes_nil_of_le (l : List Char) :
    ∀ (off a b : Nat), b ≤ off → sliceBytes l off a b = [] := by
  induction l with
  | nil => intro off a b _; rfl
  | cons c cs ih =>
    intro off a b hb
    have hc := charBytes_pos c
    simp only [sliceBytes]
    rw [if_neg (by omega)]
    exact ih (off + charBytes c) a b (by omega)

theorem sliceBytes_all (l : List Char) :
    ∀ (off a b : Nat), a ≤ off → off + utf8Len l ≤ b → sliceBytes l off a b = l := by
  induction l with
  | nil => intro off a b _ _; rfl
  | cons c cs ih =>
    intro off a b ha hb
    simp only [utf8Len] at hb
    simp only [sliceBytes]
    rw [if_pos (by omega)]
    rw [ih (off + charBytes c) a b (by omega) (by omega)]

theorem sliceBytes_take (l2 l3 : List Char) :
    ∀ (off a : Nat), a ≤ off →
      sliceBytes (l2 ++ l3) off a (off + utf8Len l2) = l2 := by
  induction l2 with
  | nil =>
    intro off a ha
    simp only [List.nil_append, utf8Len, Nat.add_zero]
    exact sliceBytes_nil_of_le l3 off a off (Nat.le_refl off)
  | cons c cs ih =>
    intro off a ha
    simp only [List.cons_append, sliceBytes, utf8Len, List.append_eq]
    rw [if_pos (by constructor <;> omega)]
    have heq : off + (charBytes c + utf8Len cs) = (off + charBytes c) + utf8Len cs := by
      omega
    rw [heq, ih (off + charBytes c) a (by omega)]

theorem sliceBytes_middle (l2 l3 : List Char) :
    ∀ (l1 : List Char) (off : Nat),
      sliceBytes (l1 ++ l2 ++ l3) off (off + utf8Len l1)
        (off + utf8Len l1 + utf8Len l2) = l2 := by
  intro l1
  induction l1 with
  | nil =>
    intro off
    simp only [List.nil_append, utf8Len, Nat.add_zero]
    exact sliceBytes_take l2 l3 off off (Nat.le_refl off)
  | cons c cs ih =>
    intro off
    have hc := charBytes_pos c
    simp only [List.cons_append, sliceBytes, utf8Len, List.append_eq]
    rw [if_neg (by omega)]
    have h1 : off + (charBytes c + utf8Len cs) = (off + charBytes c) + utf8Len cs := by
      omega
    rw [h1]
    exact ih (off + charBytes c)

theorem strBytes_eq_offAt (text : String) (tokens : List (Nat × String))
    (hjoin : joinChars tokens = text.data) :
    strBytes text = offAt 0 tokens tokens.length := by
  unfold offAt
  rw [List.take_length, ← utf8Len_joinChars, hjoin]
  simp [strBytes]

theorem tokens_decomp (tokens : List (Nat × String)) {i j : Nat} (hij : i ≤ j) :
    tokens = tokens.take i ++ (tokens.drop i).take (j - i) ++ tokens.drop j := by
  have h1 : tokens.take j = tokens.take i ++ (tokens.drop i).take (j - i) := by
    conv_lhs => rw [show j = i + (j - i) by omega]
    exact List.take_add tokens i (j - i)
  rw [← h1, List.take_append_drop]

theorem offAt_take_eq (tokens : List (Nat × String)) (i : Nat) :
    offAt 0 tokens i = utf8Len (joinChars (tokens.take i)) := by
  rw [utf8Len_joinChars]
  simp [offAt]

theorem slice_join_segment (text : String) (tokens : List (Nat × String))
    (hjoin : joinChars tokens = text.data) {i j : Nat} (hij : i ≤ j) :
    sliceBytes text.data 0 (offAt 0 tokens i) (offAt 0 tokens j)
      = joinChars ((tokens.drop i).take (j - i)) := by
  have hdecomp := tokens_decomp tokens hij
  have hdata : text.data = joinChars (tokens.take i)
      ++ joinChars ((tokens.drop i).take (j - i)) ++ joinChars (tokens.drop j) := by
    rw [← hjoin]
    conv_lhs => rw [hdecomp]
    rw [joinChars_append, joinChars_append]
  have hoffi : offAt 0 tokens i = utf8Len (joinChars (tokens.take i)) :=
    offAt_take_eq tokens i
  have hoffj : offAt 0 tokens j = utf8Len (joinChars (tokens.take i))
      + utf8Len (joinChars ((tokens.drop i).take (j - i))) := by
    rw [offAt_take_eq tokens j]
    have h1 : tokens.take j = tokens.take i ++ (tokens.drop i).take (j - i) := by
      conv_lhs => rw [show j = i + (j - i) by omega]
      exact List.take_add tokens i (j - i)
    rw [h1, joinChars_append, utf8Len_append]
  rw [hdata, hoffi, hoffj]
  have := sliceBytes_middle (joinChars ((tokens.drop i).take (j - i)))
    (joinChars (tokens.drop j)) (joinChars (tokens.take i)) 0
  simpa using this

theorem seg_take_glue (tokens : List (Nat × String)) {i j k : Nat}
    (hij : i ≤ j) (hjk : j ≤ k) :
    (tokens.drop i).take (j - i) ++ (tokens.drop j).take (k - j)
      = (tokens.drop i).take (k - i) := by
  have hdj : tokens.drop j = (tokens.drop i).drop (j - i) := by
    rw [List.drop_drop]
    congr 1
    omega
  rw [hdj]
  have := List.take_add (tokens.drop i) (j - i) (k - j)
  rw [show (j - i) + (k - j) = k - i by omega] at this
  rw [← this]

theorem extractBytes_glue (text : String) (tokens : List (Nat × String))
    (hjoin : joinChars tokens = text.data) {i j k : Nat}
    (hij : i ≤ j) (hjk : j ≤ k) :
    extractBytes text (offAt 0 tokens i) (offAt 0 tokens j)
      ++ extractBytes text (offAt 0 tokens j) (offAt 0 tokens k)
      = extractBytes text (offAt 0 tokens i) (offAt 0 tokens k) := by
  unfold extractBytes
  rw [slice_join_segment text tokens hjoin hij,
    slice_join_segment text tokens hjoin hjk,
    slice_join_segment text tokens hjoin (by omega : i ≤ k)]
  show String.mk _ ++ String.mk _ = String.mk _
  rw [show ∀ a b : List Char, String.mk a ++ String.mk b = String.mk (a ++ b)
    from fun a b => rfl]
  rw [← joinChars_append, seg_take_glue tokens hij hjk]

theorem specReplace_reconstruct (text : String) (tokens : List (Nat × String))
    (hch : tokensChained 0 tokens = true) (hjoin : joinChars tokens = text.data) :
    ∀ (ms : List (String × Nat × Nat)) (k : Nat), k ≤ tokens.length →
      MatchesIdx 0 tokens ms k →
      specReplace text (offAt 0 tokens k)
        (ms.map (fun m => (extractBytes text m.2.1 m.2.2, m.2.1, m.2.2)))
      = extractBytes text (offAt 0 tokens k) (offAt 0 tokens tokens.length) := by
  intro ms
  induction ms with
  | nil =>
    intro k hk _
    simp only [List.map_nil, specReplace]
    rw [strBytes_eq_offAt text tokens hjoin]
  | cons m0 rest ih =>
    obtain ⟨cw0, s, e⟩ := m0
    intro k hk h
    simp only [MatchesIdx] at h
    obtain ⟨a, b, h1, h2, h3, h4, h5, h6⟩ := h
    subst h4
    subst h5
    simp only [List.map_cons, specReplace]
    rw [ih b h3 h6]
    rw [extractBytes_glue text tokens hjoin h1 (by omega : a ≤ b)]
    rw [extractBytes_glue text tokens hjoin (by omega : k ≤ b) h3]

theorem replace_foldl_spec (text : String) :
    ∀ (ms : List (String × Nat × Nat)) (acc : String) (prev : Nat),
      (ms.foldl (fun (st : String × Nat) m =>
          (st.1 ++ extractBytes text st.2 m.2.1 ++ m.1, m.2.2)) (acc, prev)).1
        ++ extractBytes text
          (ms.foldl (fun (st : String × Nat) m =>
            (st.1 ++ extractBytes text st.2 m.2.1 ++ m.1, m.2.2)) (acc, prev)).2
          (strBytes text)
      = acc ++ specReplace text prev ms := by
  intro ms
  induction ms with
  | nil => intro acc prev; simp [specReplace]
  | cons m0 rest ih =>
    obtain ⟨cw0, s, e⟩ := m0
    intro acc prev
    simp only [List.foldl_cons, specReplace]
    rw [ih (acc ++ extractBytes text prev s ++ cw0) e]
    simp [String.append_assoc]

theorem extractBytes_full (text : String) : extractBytes text 0 (strBytes text) = text := by
  unfold extractBytes strBytes
  rw [sliceBytes_all text.data 0 0 (utf8Len text.data) (Nat.le_refl 0) (by omega)]

theorem pathTerminal_new (cs : Bool) :
    ∀ ts : List String, pathTerminal cs Node.new ts = none := by
  intro ts
  cases ts with
  | nil => rfl
  | cons t ts => simp [pathTerminal, childGet, findChild, Node.new, Node.children]

theorem insertPath_snd (cs : Bool) :
    ∀ (ts : List String) (node : Node) (cw : String),
      (insertPath cs node ts cw).2 = (pathTerminal cs node ts).isSome := by
  intro ts
  induction ts with
  | nil => intro node cw; rfl
  | cons t ts ih =>
    intro node cw
    simp only [insertPath, pathTerminal]
    cases hc : childGet cs node t with
    | some c => simp only [hc, Option.getD_some]; exact ih c cw
    | none =>
      simp only [hc, Option.getD_none]
      rw [ih Node.new cw, pathTerminal_new cs ts]

theorem setChild_count (cs : Bool) (tok : String) (n : Node) :
    ∀ ch : List (String × Node),
      countTerminalsList (setChild cs ch tok n)
        + countTerminals ((findChild cs ch tok).getD Node.new)
      = countTerminalsList ch + countTerminals n := by
  intro ch
  induction ch with
  | nil =>
    simp [setChild, findChild, countTerminalsList, Node.new, countTerminals]
  | cons p rest ih =>
    obtain ⟨k, c⟩ := p
    simp only [findChild] at ih
    cases hk : keyEq cs k tok with
    | true =>
      simp [setChild, findChild, List.find?, hk, countTerminalsList]
      omega
    | false =>
      simp only [setChild, findChild, List.find?, hk, Bool.false_eq_true, if_false,
        countTerminalsList]
      omega

theorem insertPath_count (cs : Bool) :
    ∀ (ts : List String) (node : Node) (cw : String),
      countTerminals (insertPath cs node ts cw).1
        + (if (insertPath cs node ts cw).2 then 1 else 0)
      = countTerminals node + 1 := by
  intro ts
  induction ts with
  | nil =>
    intro node cw
    cases node with
    | mk cw0 ch =>
      simp only [insertPath, countTerminals, Node.clean_word, Node.children]
      cases cw0 <;> simp <;> omega
  | cons t ts ih =>
    intro node cw
    cases node with
    | mk cw0 ch =>
      simp only [insertPath, countTerminals, Node.clean_word, Node.children, childGet]
      have hset := setChild_count cs t
        (insertPath cs ((findChild cs ch t).getD Node.new) ts cw).1 ch
      have hrec := ih ((findChild cs ch t).getD Node.new) cw
      omega

theorem add_keyword_count (kp : KeywordProcessor) (w c : String)
    (hinv : kp.len = countTerminals kp.trie) :
    (kp.add_keyword_with_clean_word w c).len
      = countTerminals (kp.add_keyword_with_clean_word w c).trie := by
  unfold KeywordProcessor.add_keyword_with_clean_word
  have hc := insertPath_count kp.case_sensitive (wordTokens w) kp.trie c
  cases h2 : (insertPath kp.case_sensitive kp.trie (wordTokens w) c).2 with
  | true => simp only [h2, if_true] at hc ⊢; omega
  | false => simp only [h2, if_false, Bool.false_eq_true] at hc ⊢; omega

theorem buildKP_invariant_aux (pairs : List (String × String)) :
    ∀ kp : KeywordProcessor, kp.len = countTerminals kp.trie →
      (pairs.foldl (fun kp p => kp.add_keyword_with_clean_word p.1 p.2) kp).len
        = countTerminals
          ((pairs.foldl (fun kp p => kp.add_keyword_with_clean_word p.1 p.2) kp)).trie := by
  induction pairs with
  | nil => intro kp h; exact h
  | cons p rest ih =>
    intro kp h
    simp only [List.foldl_cons]
    exact ih _ (add_keyword_count kp p.1 p.2 h)

theorem childGet_setChild (cs : Bool) (tok : String) (n : Node) :
    ∀ ch, findChild cs (setChild cs ch tok n) tok = some n := by
  intro ch
  induction ch with
  | nil => simp [setChild, findChild, List.find?, keyEq_refl]
  | cons p rest ih =>
    obtain ⟨k, c⟩ := p
    cases hk : keyEq cs k tok with
    | true => simp [setChild, findChild, List.find?, hk]
    | false =>
      simp only [setChild, findChild, List.find?, hk, Bool.false_eq_true, if_false]
      simp only [findChild] at ih
      exact ih

theorem pathTerminal_insert (cs : Bool) :
    ∀ (ts : List String) (node : Node) (cw : String),
      pathTerminal cs (insertPath cs node ts cw).1 ts = some cw := by
  intro ts
  induction ts with
  | nil => intro node cw; rfl
  | cons t ts ih =>
    intro node cw
    simp only [insertPath, pathTerminal, childGet, Node.children,
      childGet_setChild]
    exact ih _ cw

theorem nextMatch_children_congr (cs : Bool) (tokens : List (Nat × String))
    (trie1 trie2 : Node) (h : trie1.children = trie2.children) (idx : Nat) :
    nextMatch cs trie1 tokens idx = nextMatch cs trie2 tokens idx :=
  scanLoop_children_congr cs tokens (scanFuel tokens) trie1 trie2 trie1 trie2
    none idx idx h h

theorem extractLoop_children_congr (cs : Bool) (tokens : List (Nat × String))
    (trie1 trie2 : Node) (h : trie1.children = trie2.children) :
    ∀ (fuel idx : Nat),
      extractLoop cs trie1 tokens fuel idx = extractLoop cs trie2 tokens fuel idx := by
  intro fuel
  induction fuel with
  | zero => intro idx; rfl
  | succ fuel ih =>
    intro idx
    rw [extractLoop, extractLoop, nextMatch_children_congr cs tokens trie1 trie2 h idx]
    cases hnm : nextMatch cs trie2 tokens idx with
    | mk fst snd =>
      cases fst with
      | some m => simp only [ih]
      | none => rfl

theorem extractLoop_no_children (cs : Bool) (tokens : List (Nat × String))
    (trie : Node) (h : trie.children = []) :
    ∀ (fuel idx : Nat), extractLoop cs trie tokens fuel idx = [] := by
  intro fuel
  cases fuel with
  | zero => intro idx; rfl
  | succ fuel =>
    intro idx
    have hn : (nextMatch cs trie tokens idx).1 = none :=
      scanLoop_no_children cs tokens (scanFuel tokens) trie trie idx idx h h
    rw [extractLoop]
    cases hnm : nextMatch cs trie tokens idx with
    | mk fst snd =>
      rw [hnm] at hn
      simp only at hn
      subst hn
      rfl

theorem replace_of_extract_nil (kp : KeywordProcessor) (text : String)
    (h : kp.extract_keywords_with_span text = []) :
    kp.replace_keywords text = text := by
  unfold KeywordProcessor.replace_keywords
  rw [h]
  simp only [List.foldl_nil]
  have : extractBytes text (("", 0) : String × Nat).2 (strBytes text) = text :=
    extractBytes_full text
  rw [this]
  simp

/-- C1: registering `"hello"` and `"hello world"` and extracting with span
from `"hello world"` yields exactly `[("hello world", 0, 11)]`; the shorter
keyword `"hello"` is not reported, because within one attempt a longer
matching token sequence supersedes a shorter one found earlier. -/
theorem claim_C1_greedy_longest_match :
    kpHello.extract_keywords_with_span "hello world" = [("hello world", 0, 11)] := by
  decide

/-- C8: a case-insensitive processor with keyword `"Rust"` extracting from
`"i love RUST"` reports the registered text `"Rust"` (with its span), not
the casing `"RUST"` found in the scanned text. -/
theorem claim_C8_case_insensitive :
    kpRust.extract_keywords "i love RUST" = ["Rust"]
    ∧ kpRust.extract_keywords_with_span "i love RUST" = [("Rust", 7, 11)] := by
  decide

/-- C2 counterexample: with keywords `"a"`, `"a b c"`, `"b"` and text
`"a b d"`, the first call emits `("a", 0, 1)` but resumes at token index 4
(the token `"d"` that broke the chain), so the registered keyword `"b"`,
which occurs at token index 2 — a token after the emitted match's end — is
skipped by the next call: the whole extraction reports only `("a", 0, 1)`. -/
theorem claim_C2_counterexample :
    kpABC.extract_keywords_with_span "a b d" = [("a", 0, 1)]
    ∧ nextMatch true kpABC.trie (tokenize "a b d") 0 = (some ("a", 0, 1), 4)
    ∧ pathTerminal true kpABC.trie ["b"] = some "b"
    ∧ (tokenize "a b d")[2]? = some (2, "b")
    ∧ nextMatch true kpABC.trie (tokenize "a b d") 4 = (none, 5) := by
  decide

/-- C2 (amended): when a call of the extractor returns a match, the index
was rolled back by exactly one token, so the following call resumes from
the token that broke the chain; that resume position is at or after the
emitted match's end (`m.end ≤ offAt resume`), strictly after the call's
starting index, and within the token stream.  Keyword occurrences starting
between the match's end and the resume token may be skipped (see the
counterexample); occurrences from the resume token onward are scanned. -/
theorem claim_C2_resume_after_match (cs : Bool) (trie : Node) (text : String)
    (idx : Nat) (m : String × Nat × Nat) (idx2 : Nat)
    (h : nextMatch cs trie (tokenize text) idx = (some m, idx2)) :
    idx < idx2 ∧ idx2 ≤ (tokenize text).length
      ∧ m.2.2 ≤ offAt 0 (tokenize text) idx2 := by
  obtain ⟨cw, s, e⟩ := m
  have hadv := nextMatch_advance cs trie (tokenize text) idx (cw, s, e) idx2 h
  obtain ⟨a, b, h1, h2, h3, h4, h5, h6⟩ :=
    nextMatch_spec cs trie (tokenize text) 0 (tokenize_chained text) idx cw s e idx2 h
  refine ⟨hadv.1, hadv.2, ?_⟩
  simp only [h6]
  exact offAt_mono 0 (tokenize text) h3

theorem claim_C2_resume_after_match_witness :
    0 < 3 ∧ 3 ≤ (tokenize "hello world").length
      ∧ 11 ≤ offAt 0 (tokenize "hello world") 3 :=
  claim_C2_resume_after_match true kpHello.trie "hello world" 0
    ("hello world", 0, 11) 3 (by decide)

/-- C3: after any sequence of insertions from a fresh processor, `len`
equals the number of trie nodes with a present terminal value (one per
distinct token path); re-inserting a keyword whose token path is already
terminal leaves `len` unchanged while overwriting the stored replacement
(last insertion wins), and the overwritten replacement is what future
matches report, as the concrete double registration of `"hi"` shows. -/
theorem claim_C3_count_invariant :
    (∀ (cs : Bool) (pairs : List (String × String)),
      (buildKP cs pairs).len = countTerminals (buildKP cs pairs).trie)
    ∧ (∀ (kp : KeywordProcessor) (w c : String),
        (pathTerminal kp.case_sensitive kp.trie (wordTokens w)).isSome = true →
        (kp.add_keyword_with_clean_word w c).len = kp.len
          ∧ pathTerminal kp.case_sensitive (kp.add_keyword_with_clean_word w c).trie
              (wordTokens w) = some c)
    ∧ kpHi.extract_keywords "hi" = ["B"] ∧ kpHi.len = 1 := by
  refine ⟨?_, ?_, by decide, by decide⟩
  · intro cs pairs
    exact buildKP_invariant_aux pairs (KeywordProcessor.new cs)
      (by simp [KeywordProcessor.new, Node.new, countTerminals, countTerminalsList])
  · intro kp w c h
    have hsnd : (insertPath kp.case_sensitive kp.trie (wordTokens w) c).2 = true := by
      rw [insertPath_snd kp.case_sensitive (wordTokens w) kp.trie c, h]
    constructor
    · unfold KeywordProcessor.add_keyword_with_clean_word
      simp [hsnd]
    · have := pathTerminal_insert kp.case_sensitive (wordTokens w) kp.trie c
      unfold KeywordProcessor.add_keyword_with_clean_word
      simpa using this

theorem claim_C3_count_invariant_witness :
    (kpHi.add_keyword_with_clean_word "hi" "C").len = kpHi.len
      ∧ pathTerminal kpHi.case_sensitive
          (kpHi.add_keyword_with_clean_word "hi" "C").trie (wordTokens "hi")
        = some "C" :=
  claim_C3_count_invariant.2.1 kpHi "hi" "C" (by decide)

/-- C4: every match of a span extraction run satisfies `start < end` with
both offsets inside the original text's byte range, and successive matches
are non-overlapping and ordered left to right
(`match[i].end ≤ match[i+1].start`). -/
theorem claim_C4_match_span_ordering (kp : KeywordProcessor) (text : String) :
    (∀ m ∈ kp.extract_keywords_with_span text,
        m.2.1 < m.2.2 ∧ m.2.2 ≤ strBytes text)
    ∧ List.Chain' (fun x y => x.2.2 ≤ y.2.1) (kp.extract_keywords_with_span text) := by
  have hch := tokenize_chained text
  have hmi := extractLoop_matchesIdx kp.case_sensitive kp.trie (tokenize text) 0 hch
    ((tokenize text).length + 1) 0
  have hspan : kp.extract_keywords_with_span text
      = extractLoop kp.case_sensitive kp.trie (tokenize text)
          ((tokenize text).length + 1) 0 := rfl
  constructor
  · intro m hm
    rw [hspan] at hm
    have hb := matchesIdx_bounds 0 (tokenize text) hch _ 0 hmi m hm
    have hsz : strBytes text = offAt 0 (tokenize text) (tokenize text).length :=
      strBytes_eq_offAt text (tokenize text) (tokenize_join text)
    refine ⟨hb.2.1, ?_⟩
    rw [hsz]
    exact hb.2.2
  · rw [hspan]
    exact matchesIdx_chain 0 (tokenize text) hch _ 0 hmi

theorem claim_C4_match_span_ordering_witness :
    (0 < 11 ∧ 11 ≤ strBytes "hello world") :=
  (claim_C4_match_span_ordering kpHello "hello world").1 ("hello world", 0, 11)
    (by decide)

/-- C9: the extractor is a total function in this embedding (each call of
`nextMatch` terminates by construction), and a full extraction run is
finite: it yields at most as many matches as the tokenized input has
tokens before signalling completion. -/
theorem claim_C9_termination (kp : KeywordProcessor) (text : String) :
    (kp.extract_keywords_with_span text).length ≤ (tokenize text).length := by
  have := extractLoop_length kp.case_sensitive kp.trie (tokenize text)
    ((tokenize text).length + 1) 0
  have hspan : kp.extract_keywords_with_span text
      = extractLoop kp.case_sensitive kp.trie (tokenize text)
          ((tokenize text).length + 1) 0 := rfl
  rw [hspan]
  omega

/-- C5: `replace_keywords` equals the assembly described by the spec —
iterate the span extraction in order, appending `text[prev_end..start]`
verbatim, then the match's replacement text, then setting
`prev_end = end`, and finally appending `text[prev_end..]` — and every byte
of the input outside the matched spans appears unchanged in the output:
substituting each match's original slice for its replacement text
reassembles the input exactly, regardless of any length mismatch between
keywords and replacements. -/
theorem claim_C5_replacer_assembly (kp : KeywordProcessor) (text : String) :
    kp.replace_keywords text
        = specReplace text 0 (kp.extract_keywords_with_span text)
    ∧ specReplace text 0
        ((kp.extract_keywords_with_span text).map
          (fun m => (extractBytes text m.2.1 m.2.2, m.2.1, m.2.2)))
      = text := by
  constructor
  · unfold KeywordProcessor.replace_keywords
    have := replace_foldl_spec text (kp.extract_keywords_with_span text) "" 0
    simpa using this
  · have hch := tokenize_chained text
    have hjoin := tokenize_join text
    have hmi := extractLoop_matchesIdx kp.case_sensitive kp.trie (tokenize text) 0 hch
      ((tokenize text).length + 1) 0
    have hspan : kp.extract_keywords_with_span text
        = extractLoop kp.case_sensitive kp.trie (tokenize text)
            ((tokenize text).length + 1) 0 := rfl
    rw [hspan]
    have hrec := specReplace_reconstruct text (tokenize text) hch hjoin
      (extractLoop kp.case_sensitive kp.trie (tokenize text)
        ((tokenize text).length + 1) 0) 0 (by omega) hmi
    rw [offAt_zero] at hrec
    rw [hrec, ← strBytes_eq_offAt text (tokenize text) hjoin, extractBytes_full]

/-- C6: when the scan hits a token with no child edge while no match has
been recorded in the current attempt, it restarts a fresh attempt at
`traversal_start_idx + 1` — one token after the failed attempt's start, not
past the whole failed chain — with the trie position reset to the root;
consequently the keyword `"b"`, which begins inside the longer failed
chain of `"a x"` over the text `"a b"`, is still found. -/
theorem claim_C6_dead_end_restart :
    (∀ (cs : Bool) (trie : Node) (tokens : List (Nat × String)) (fuel : Nat)
        (node : Node) (start idx o : Nat) (t : String),
      start ≤ idx →
      tokens[idx]? = some (o, t) →
      childGet cs node t = none →
      (tokens.length - start) * (tokens.length + 1) + (tokens.length - idx) ≤ fuel →
      scanLoop cs trie tokens fuel node none start idx
        = scanLoop cs trie tokens fuel trie none (start + 1) (start + 1))
    ∧ kpAX.extract_keywords_with_span "a b" = [("b", 2, 3)] := by
  constructor
  · intro cs trie tokens fuel node start idx o t hsi htok hc hfuel
    have hidx : idx < tokens.length := (List.getElem?_eq_some.mp htok).1
    have hf1 : 1 ≤ fuel := by
      have : 1 ≤ tokens.length - idx := by omega
      omega
    obtain ⟨f, rfl⟩ : ∃ f, fuel = f + 1 := ⟨fuel - 1, by omega⟩
    have hstep : scanLoop cs trie tokens (f + 1) node none start idx
        = scanLoop cs trie tokens f trie none (start + 1) (start + 1) := by
      simp only [scanLoop, htok, hc]
    rw [hstep]
    have hde := measure_dead_end tokens.length start idx hsi hidx
    exact scanLoop_fuel_eq cs trie tokens f (f + 1) trie none (start + 1) (start + 1)
      (Nat.le_refl _) (by omega) (by omega)
  · decide

theorem claim_C6_dead_end_restart_witness :
    scanLoop true Node.new (tokenize "a") 4 Node.new none 0 0
      = scanLoop true Node.new (tokenize "a") 4 Node.new none 1 1 :=
  claim_C6_dead_end_restart.1 true Node.new (tokenize "a") 4 Node.new 0 0 0 "a"
    (by decide) (by decide) rfl (by decide)

/-- C7: extraction over the empty text yields no matches, a processor with
no registered keywords yields no matches over any text, and in both
situations `replace_keywords` returns its input unchanged. -/
theorem claim_C7_empty_cases (kp : KeywordProcessor) (text : String) :
    kp.extract_keywords_with_span "" = [] ∧ kp.replace_keywords "" = ""
    ∧ (kp.trie = Node.new →
        kp.extract_keywords_with_span text = [] ∧ kp.replace_keywords text = text) := by
  have htok : tokenize "" = ([] : List (Nat × String)) := by decide
  have h1 : kp.extract_keywords_with_span "" = [] := by
    unfold KeywordProcessor.extract_keywords_with_span
    rw [htok]
    rfl
  refine ⟨h1, ?_, ?_⟩
  · have h2 := replace_of_extract_nil kp "" h1
    rw [h2]
  · intro htrie
    have h3 : kp.extract_keywords_with_span text = [] := by
      unfold KeywordProcessor.extract_keywords_with_span extractAll
      exact extractLoop_no_children kp.case_sensitive (tokenize text) kp.trie
        (by rw [htrie]; rfl) ((tokenize text).length + 1) 0
    exact ⟨h3, replace_of_extract_nil kp text h3⟩

theorem claim_C7_empty_cases_witness :
    (KeywordProcessor.new true).extract_keywords_with_span "a" = []
      ∧ (KeywordProcessor.new true).replace_keywords "a" = "a" :=
  (claim_C7_empty_cases (KeywordProcessor.new true) "a").2.2 rfl

/-- C10: inserting the empty keyword on a processor whose root is not yet
terminal increments `len` and marks the root node terminal, yet changes
nothing observable through `extract_keywords`, `extract_keywords_with_span`
or `replace_keywords`, because a terminal value is only consulted after
descending to a child node — the empty keyword is counted but never
matched. -/
theorem claim_C10_empty_keyword (kp : KeywordProcessor) (text : String)
    (h : kp.trie.clean_word = none) :
    (kp.add_keyword "").len = kp.len + 1
    ∧ (kp.add_keyword "").trie.clean_word = some ""
    ∧ (kp.add_keyword "").extract_keywords_with_span text
        = kp.extract_keywords_with_span text
    ∧ (kp.add_keyword "").extract_keywords text = kp.extract_keywords text
    ∧ (kp.add_keyword "").replace_keywords text = kp.replace_keywords text := by
  have hwt : wordTokens "" = [] := by decide
  have hkp : kp.add_keyword ""
      = { kp with trie := Node.mk (some "") kp.trie.children, len := kp.len + 1 } := by
    unfold KeywordProcessor.add_keyword KeywordProcessor.add_keyword_with_clean_word
    rw [hwt]
    simp [insertPath, h]
  have hspan : (kp.add_keyword "").extract_keywords_with_span text
      = kp.extract_keywords_with_span text := by
    rw [hkp]
    unfold KeywordProcessor.extract_keywords_with_span extractAll
    exact extractLoop_children_congr kp.case_sensitive (tokenize text)
      (Node.mk (some "") kp.trie.children) kp.trie rfl ((tokenize text).length + 1) 0
  refine ⟨by rw [hkp], by rw [hkp]; rfl, hspan, ?_, ?_⟩
  · unfold KeywordProcessor.extract_keywords
    rw [hspan]
  · unfold KeywordProcessor.replace_keywords
    rw [hspan]

theorem claim_C10_empty_keyword_witness :
    ((KeywordProcessor.new true).add_keyword "").len = (KeywordProcessor.new true).len + 1
    ∧ ((KeywordProcessor.new true).add_keyword "").trie.clean_word = some ""
    ∧ ((KeywordProcessor.new true).add_keyword "").extract_keywords_with_span "a"
        = (KeywordProcessor.new true).extract_keywords_with_span "a"
    ∧ ((KeywordProcessor.new true).add_keyword "").extract_keywords "a"
        = (KeywordProcessor.new true).extract_keywords "a"
    ∧ ((KeywordProcessor.new true).add_keyword "").replace_keywords "a"
        = (KeywordProcessor.new true).replace_keywords "a" :=
  claim_C10_empty_keyword (KeywordProcessor.new true) "a" rfl
